import Mathlib

/-!
Shallow embedding of the 360° panorama viewer (`app360.py`).

The viewer holds a camera (yaw/pitch in degrees, vertical field of view in
degrees, a 3-D position), the last mouse reference point, the widget size and
the most recently computed perspective projection.  Python floats are modelled
as real numbers; the held-key set is modelled as a `Finset` of key identifiers.
-/

namespace App360

/-- The Qt key identifiers the program inspects (`Qt.Key_W`, …). -/
inductive Key where
  | w | a | s | d | q | e | plus | equal | minus | escape
deriving DecidableEq

/-- The perspective projection installed by `gluPerspective(fov, aspect, 0.1, 1000)`. -/
structure Projection where
  fovy : ℝ
  aspect : ℚ
  near : ℝ
  far : ℝ

/-- The mutable state of `PanoramaViewer`: camera orientation (`yaw`, `pitch`),
vertical field of view `fov`, camera position (`cam_x`, `cam_y`, `cam_z`),
the stored mouse reference (`last_x`, `last_y`), the widget size, and the
projection last installed by `update_projection` (`none` before the first
resize).  Initial values are set in `__init__`. -/
structure Viewer where
  yaw : ℝ
  pitch : ℝ
  fov : ℝ
  cam_x : ℝ
  cam_y : ℝ
  cam_z : ℝ
  last_x : ℤ
  last_y : ℤ
  width : ℤ
  height : ℤ
  proj : Option Projection

/-- The state right after `PanoramaViewer.__init__` (yaw 0, pitch 0, fov 100,
position at the origin); the widget sits in a fixed 1280×720 window. -/
def initViewer : Viewer :=
  { yaw := 0, pitch := 0, fov := 100, cam_x := 0, cam_y := 0, cam_z := 0,
    last_x := 0, last_y := 0, width := 1280, height := 720, proj := none }

/-- The aspect-ratio expression `w / h if h else 1` of `update_projection`,
with Python's division modelled as a fallible operation (`none` on a zero
divisor), so that "no division by zero happens" is expressible. -/
def pyDiv (a b : ℚ) : Option ℚ := if b = 0 then none else some (a / b)

/-- `w / h if h else 1`: the division is only reached when `h` is truthy. -/
def aspectExpr (w h : ℤ) : Option ℚ :=
  if h ≠ 0 then pyDiv (w : ℚ) (h : ℚ) else some 1

/-- The value the aspect expression evaluates to. -/
def aspectOrOne (w h : ℤ) : ℚ := if h ≠ 0 then (w : ℚ) / (h : ℚ) else 1

/-- `update_projection`: `gluPerspective(self.fov, w / h if h else 1, 0.1, 1000)`
with the widget's current size. -/
noncomputable def update_projection (v : Viewer) : Viewer :=
  { v with proj := some { fovy := v.fov, aspect := aspectOrOne v.width v.height,
                          near := 0.1, far := 1000 } }

/-- `math.radians`: degrees to radians. -/
noncomputable def radians (deg : ℝ) : ℝ := deg * Real.pi / 180

/-- The six movement-key tests of `update_movement` (lines 153–173): W/S move
along the forward vector `(sin rad, 0, -cos rad)`, A/D along the right vector
`(cos rad, 0, sin rad)`, Q/E along the vertical axis, each scaled by
`speed = 0.2`. -/
noncomputable def moveKeys (keys : Finset Key) (v : Viewer) : Viewer :=
  let speed : ℝ := 0.2
  let rad := radians v.yaw
  let forward_x := Real.sin rad
  let forward_z := -Real.cos rad
  let right_x := Real.cos rad
  let right_z := Real.sin rad
  let v1 := if Key.w ∈ keys then
      { v with cam_x := v.cam_x + forward_x * speed,
               cam_z := v.cam_z + forward_z * speed } else v
  let v2 := if Key.s ∈ keys then
      { v1 with cam_x := v1.cam_x - forward_x * speed,
                cam_z := v1.cam_z - forward_z * speed } else v1
  let v3 := if Key.a ∈ keys then
      { v2 with cam_x := v2.cam_x - right_x * speed,
                cam_z := v2.cam_z - right_z * speed } else v2
  let v4 := if Key.d ∈ keys then
      { v3 with cam_x := v3.cam_x + right_x * speed,
                cam_z := v3.cam_z + right_z * speed } else v3
  let v5 := if Key.q ∈ keys then { v4 with cam_y := v4.cam_y - speed } else v4
  let v6 := if Key.e ∈ keys then { v5 with cam_y := v5.cam_y + speed } else v5
  v6

/-- The two zoom-key tests of `update_movement` (lines 175–186): Plus/Equal
lowers the fov (floored at 30) and recomputes the projection; Minus raises the
fov (capped at 120), recomputes the projection, and then resets the camera
position to the origin. -/
noncomputable def zoomKeys (keys : Finset Key) (v : Viewer) : Viewer :=
  let v7 := if Key.plus ∈ keys ∨ Key.equal ∈ keys then
      update_projection { v with fov := max 30 (v.fov - 1) } else v
  let v8 := if Key.minus ∈ keys then
      let w := update_projection { v7 with fov := min 120 (v7.fov + 1) }
      { w with cam_x := 0, cam_y := 0, cam_z := 0 }
    else v7
  v8

/-- One 16 ms movement tick: the movement-key block followed by the zoom-key
block, in source order. -/
noncomputable def update_movement (keys : Finset Key) (v : Viewer) : Viewer :=
  zoomKeys keys (moveKeys keys v)

/-- `mousePressEvent`: record the cursor position as the drag reference. -/
def mousePressEvent (ex ey : ℤ) (v : Viewer) : Viewer :=
  { v with last_x := ex, last_y := ey }

/-- `mouseMoveEvent`: add `dx * 0.2` to yaw and `dy * 0.2` to pitch, clamp the
pitch to `[-89, 89]`, and store the new cursor position as the reference. -/
noncomputable def mouseMoveEvent (ex ey : ℤ) (v : Viewer) : Viewer :=
  let dx : ℤ := ex - v.last_x
  let dy : ℤ := ey - v.last_y
  let yaw' := v.yaw + (dx : ℝ) * 0.2
  let pitch' := v.pitch + (dy : ℝ) * 0.2
  let pitch'' := max (-89) (min 89 pitch')
  { v with yaw := yaw', pitch := pitch'', last_x := ex, last_y := ey }

/-- The UI events that mutate the viewer state. -/
inductive Ev where
  | tick (keys : Finset Key)
  | mouseMove (x y : ℤ)
  | mousePress (x y : ℤ)

/-- Dispatch one event to its handler. -/
noncomputable def stepEv (e : Ev) (v : Viewer) : Viewer :=
  match e with
  | .tick keys => update_movement keys v
  | .mouseMove x y => mouseMoveEvent x y v
  | .mousePress x y => mousePressEvent x y v

/-- Run a sequence of UI events from a state. -/
noncomputable def runEvents (evs : List Ev) (v : Viewer) : Viewer :=
  evs.foldl (fun s e => stepEv e s) v

/-! ### Image loading (`load_texture`) and startup (`__main__`) -/

/-- A decoded image as `cv2.imread` returns it: its sample values (modelled as
exact rationals) and whether its dtype is already `np.uint8`. -/
structure Img where
  samples : List ℚ
  dtypeUint8 : Bool

/-- `cv2.normalize(img, None, 0, 255, cv2.NORM_MINMAX)`: with `smin`/`smax`
the least and greatest sample, OpenCV uses `scale = 255 / (smax - smin)` when
the range is positive and `scale = 0` otherwise, `shift = 0 - smin * scale`,
and maps every sample `t` to `t * scale + shift`. -/
def normalizeMinMax (xs : List ℚ) : List ℚ :=
  match xs with
  | [] => []
  | x :: rest =>
    let smin := rest.foldl min x
    let smax := rest.foldl max x
    let scale := if smin < smax then (255 : ℚ) / (smax - smin) else 0
    let shift := 0 - smin * scale
    (x :: rest).map (fun t => t * scale + shift)

/-- `astype(np.uint8)` on the normalised buffer: the values already lie in
`[0, 255]`, where the conversion truncates toward zero, i.e. takes the floor. -/
def astypeUint8 (q : ℚ) : ℚ := (⌊q⌋ : ℚ)

/-- Lines 64–66 of `load_texture`: a non-8-bit image is min-max normalised
into `[0, 255]` and converted to 8-bit; an 8-bit image passes through. -/
def rescaleTo8bit (img : Img) : List ℚ :=
  if img.dtypeUint8 then img.samples
  else (normalizeMinMax img.samples).map astypeUint8

/-- `load_texture`: `cv2.imread` may fail (return `None`), in which case
`RuntimeError("Failed to load image")` is raised; otherwise the
channel-converted, depth-normalised buffer becomes the texture data. -/
def load_texture (decoded : Option Img) : Except String (List ℚ) :=
  match decoded with
  | none => Except.error "Failed to load image"
  | some img => Except.ok (rescaleTo8bit img)

/-- The GL session state after `initializeGL` and the first `paintGL`. -/
structure Session where
  texture : List ℚ
  framesRendered : ℕ

/-- Startup once the GL context exists: `initializeGL` loads the texture and a
frame is painted; a raised `RuntimeError` propagates unhandled, so neither a
texture upload nor a frame happens after a decode failure. -/
def runViewerStartup (decoded : Option Img) : Except String Session :=
  match load_texture decoded with
  | Except.error e => Except.error e
  | Except.ok tex => Except.ok { texture := tex, framesRendered := 1 }

/-- The glob patterns of the dialog's filter string
`"360 Images (*.jpg *.png *.hdr *jpeg)"` (line 208; note the last pattern has
no dot). -/
def filterPatterns : List (List Char) :=
  ["*.jpg".toList, "*.png".toList, "*.hdr".toList, "*jpeg".toList]

/-- Glob matching for the leading-star patterns used in the filter: `*X`
matches exactly the names ending with `X`; a starless pattern matches only
itself. -/
def matchesPattern (pat name : List Char) : Bool :=
  match pat with
  | '*' :: tail => tail.isSuffixOf name
  | _ => pat == name

/-- A file name passes the dialog filter iff some pattern matches it. -/
def selectable (name : List Char) : Bool :=
  filterPatterns.any (fun p => matchesPattern p name)

/-- Modelled from the claim's words (for comparison with `selectable`): the
name ends in one of the four extensions `.jpg`, `.png`, `.hdr`, `.jpeg`. -/
def hasClaimedExtension (name : List Char) : Bool :=
  [".jpg".toList, ".png".toList, ".hdr".toList, ".jpeg".toList].any
    (fun e => e.isSuffixOf name)

/-- What `__main__` does with the dialog result: a falsy (empty) path — the
cancel case — exits with status 0 before any further work; otherwise the
viewer window opens on the chosen path. -/
inductive StartAction where
  | exitZero
  | openViewer (path : String)
deriving DecidableEq

/-- `if not image_path: sys.exit(0)` followed by the window construction. -/
def mainStart (image_path : String) : StartAction :=
  if image_path = "" then StartAction.exitZero else StartAction.openViewer image_path

/-! ### Characterisation lemmas for the movement tick -/

/-- The movement-key block only touches the camera position. -/
lemma moveKeys_preserves (keys : Finset Key) (v : Viewer) :
    (moveKeys keys v).yaw = v.yaw ∧ (moveKeys keys v).pitch = v.pitch ∧
    (moveKeys keys v).fov = v.fov ∧ (moveKeys keys v).last_x = v.last_x ∧
    (moveKeys keys v).last_y = v.last_y ∧ (moveKeys keys v).width = v.width ∧
    (moveKeys keys v).height = v.height ∧ (moveKeys keys v).proj = v.proj := by
  simp only [moveKeys]
  split_ifs <;> exact ⟨rfl, rfl, rfl, rfl, rfl, rfl, rfl, rfl⟩

/-- Horizontal effect of the movement-key block: each held key contributes its
direction vector scaled by the speed. -/
lemma moveKeys_cam (keys : Finset Key) (v : Viewer) :
    (moveKeys keys v).cam_x = v.cam_x
      + (if Key.w ∈ keys then Real.sin (radians v.yaw) * 0.2 else 0)
      - (if Key.s ∈ keys then Real.sin (radians v.yaw) * 0.2 else 0)
      - (if Key.a ∈ keys then Real.cos (radians v.yaw) * 0.2 else 0)
      + (if Key.d ∈ keys then Real.cos (radians v.yaw) * 0.2 else 0) ∧
    (moveKeys keys v).cam_z = v.cam_z
      + (if Key.w ∈ keys then -Real.cos (radians v.yaw) * 0.2 else 0)
      - (if Key.s ∈ keys then -Real.cos (radians v.yaw) * 0.2 else 0)
      - (if Key.a ∈ keys then Real.sin (radians v.yaw) * 0.2 else 0)
      + (if Key.d ∈ keys then Real.sin (radians v.yaw) * 0.2 else 0) ∧
    (moveKeys keys v).cam_y = v.cam_y
      - (if Key.q ∈ keys then (0.2 : ℝ) else 0)
      + (if Key.e ∈ keys then (0.2 : ℝ) else 0) := by
  simp only [moveKeys]
  split_ifs <;> refine ⟨by simp <;> ring, by simp <;> ring, by simp <;> ring⟩

/-- The zoom-key block only touches fov, the projection and (on zoom-out) the
camera position. -/
lemma zoomKeys_preserves (keys : Finset Key) (v : Viewer) :
    (zoomKeys keys v).yaw = v.yaw ∧ (zoomKeys keys v).pitch = v.pitch ∧
    (zoomKeys keys v).last_x = v.last_x ∧ (zoomKeys keys v).last_y = v.last_y ∧
    (zoomKeys keys v).width = v.width ∧ (zoomKeys keys v).height = v.height := by
  simp only [zoomKeys, update_projection]
  split_ifs <;> exact ⟨rfl, rfl, rfl, rfl, rfl, rfl⟩

/-- Fov after the zoom-key block: zoom-in applies `max 30 (fov - 1)` first,
then zoom-out applies `min 120 (· + 1)`. -/
lemma zoomKeys_fov (keys : Finset Key) (v : Viewer) :
    (zoomKeys keys v).fov =
      if Key.minus ∈ keys then
        min 120 ((if Key.plus ∈ keys ∨ Key.equal ∈ keys then
          max 30 (v.fov - 1) else v.fov) + 1)
      else
        (if Key.plus ∈ keys ∨ Key.equal ∈ keys then max 30 (v.fov - 1) else v.fov) := by
  simp only [zoomKeys, update_projection]
  split_ifs <;> rfl

/-- When the zoom-out key is not held, the zoom block leaves the position alone. -/
lemma zoomKeys_cam_of_not_minus (keys : Finset Key) (v : Viewer)
    (h : Key.minus ∉ keys) :
    (zoomKeys keys v).cam_x = v.cam_x ∧ (zoomKeys keys v).cam_y = v.cam_y ∧
    (zoomKeys keys v).cam_z = v.cam_z := by
  simp only [zoomKeys, update_projection, if_neg h]
  split_ifs <;> exact ⟨rfl, rfl, rfl⟩

/-- When the zoom-out key is held, the zoom block resets the position to the origin. -/
lemma zoomKeys_cam_of_minus (keys : Finset Key) (v : Viewer)
    (h : Key.minus ∈ keys) :
    (zoomKeys keys v).cam_x = 0 ∧ (zoomKeys keys v).cam_y = 0 ∧
    (zoomKeys keys v).cam_z = 0 := by
  simp only [zoomKeys, update_projection, if_pos h]
  exact ⟨trivial, trivial, trivial⟩

/-- Projection after a zoom-out tick on which zoom-in is not held: the new
fov with the widget's aspect ratio and the fixed 0.1/1000 planes. -/
lemma zoomKeys_proj_of_minus (keys : Finset Key) (v : Viewer)
    (hm : Key.minus ∈ keys) (hp : Key.plus ∉ keys) (he : Key.equal ∉ keys) :
    (zoomKeys keys v).proj =
      some { fovy := min 120 (v.fov + 1), aspect := aspectOrOne v.width v.height,
             near := 0.1, far := 1000 } := by
  simp only [zoomKeys, update_projection, if_pos hm, if_neg (not_or.mpr ⟨hp, he⟩)]

/-- The movement tick never changes the look angles, the mouse reference or
the widget size. -/
lemma update_movement_preserves (keys : Finset Key) (v : Viewer) :
    (update_movement keys v).yaw = v.yaw ∧ (update_movement keys v).pitch = v.pitch ∧
    (update_movement keys v).last_x = v.last_x ∧
    (update_movement keys v).last_y = v.last_y ∧
    (update_movement keys v).width = v.width ∧
    (update_movement keys v).height = v.height := by
  obtain ⟨m1, m2, _, m4, m5, m6, m7, _⟩ := moveKeys_preserves keys v
  obtain ⟨z1, z2, z3, z4, z5, z6⟩ := zoomKeys_preserves keys (moveKeys keys v)
  rw [update_movement]
  exact ⟨z1.trans m1, z2.trans m2, z3.trans m4, z4.trans m5, z5.trans m6, z6.trans m7⟩

/-- Fov after a full tick: zoom-in (floored at 30) is applied before zoom-out
(capped at 120); no other key touches the fov. -/
lemma update_movement_fov (keys : Finset Key) (v : Viewer) :
    (update_movement keys v).fov =
      if Key.minus ∈ keys then
        min 120 ((if Key.plus ∈ keys ∨ Key.equal ∈ keys then
          max 30 (v.fov - 1) else v.fov) + 1)
      else
        (if Key.plus ∈ keys ∨ Key.equal ∈ keys then max 30 (v.fov - 1) else v.fov) := by
  rw [update_movement, zoomKeys_fov, (moveKeys_preserves keys v).2.2.1]

/-- Position after a tick on which the zoom-out key is not held: exactly the
per-key contributions of the movement-key block. -/
lemma update_movement_cam_of_not_minus (keys : Finset Key) (v : Viewer)
    (h : Key.minus ∉ keys) :
    (update_movement keys v).cam_x = v.cam_x
      + (if Key.w ∈ keys then Real.sin (radians v.yaw) * 0.2 else 0)
      - (if Key.s ∈ keys then Real.sin (radians v.yaw) * 0.2 else 0)
      - (if Key.a ∈ keys then Real.cos (radians v.yaw) * 0.2 else 0)
      + (if Key.d ∈ keys then Real.cos (radians v.yaw) * 0.2 else 0) ∧
    (update_movement keys v).cam_z = v.cam_z
      + (if Key.w ∈ keys then -Real.cos (radians v.yaw) * 0.2 else 0)
      - (if Key.s ∈ keys then -Real.cos (radians v.yaw) * 0.2 else 0)
      - (if Key.a ∈ keys then Real.sin (radians v.yaw) * 0.2 else 0)
      + (if Key.d ∈ keys then Real.sin (radians v.yaw) * 0.2 else 0) ∧
    (update_movement keys v).cam_y = v.cam_y
      - (if Key.q ∈ keys then (0.2 : ℝ) else 0)
      + (if Key.e ∈ keys then (0.2 : ℝ) else 0) := by
  rw [update_movement]
  obtain ⟨zx, zy, zz⟩ := zoomKeys_cam_of_not_minus keys (moveKeys keys v) h
  obtain ⟨mx, mz, my⟩ := moveKeys_cam keys v
  exact ⟨zx.trans mx, zz.trans mz, zy.trans my⟩

/-- The fields `mouseMoveEvent` writes, and the ones it leaves alone. -/
lemma mouseMoveEvent_fields (ex ey : ℤ) (v : Viewer) :
    (mouseMoveEvent ex ey v).yaw = v.yaw + ((ex - v.last_x : ℤ) : ℝ) * 0.2 ∧
    (mouseMoveEvent ex ey v).pitch =
      max (-89) (min 89 (v.pitch + ((ey - v.last_y : ℤ) : ℝ) * 0.2)) ∧
    (mouseMoveEvent ex ey v).last_x = ex ∧ (mouseMoveEvent ex ey v).last_y = ey ∧
    (mouseMoveEvent ex ey v).fov = v.fov ∧
    (mouseMoveEvent ex ey v).cam_x = v.cam_x ∧
    (mouseMoveEvent ex ey v).cam_y = v.cam_y ∧
    (mouseMoveEvent ex ey v).cam_z = v.cam_z :=
  ⟨rfl, rfl, rfl, rfl, rfl, rfl, rfl, rfl⟩

/-- One tick keeps the fov inside `[30, 120]`. -/
lemma update_movement_fov_bounds (keys : Finset Key) (v : Viewer)
    (h1 : 30 ≤ v.fov) (h2 : v.fov ≤ 120) :
    30 ≤ (update_movement keys v).fov ∧ (update_movement keys v).fov ≤ 120 := by
  rw [update_movement_fov]
  split_ifs with hm hza hzb
  · constructor
    · refine le_min (by norm_num) ?_
      have := le_max_left (30 : ℝ) (v.fov - 1); linarith
    · exact min_le_left _ _
  · exact ⟨le_min (by norm_num) (by linarith), min_le_left _ _⟩
  · exact ⟨le_max_left _ _, max_le (by norm_num) (by linarith)⟩
  · exact ⟨h1, h2⟩

/-- A mouse move always lands the pitch inside `[-89, 89]`. -/
lemma mouseMoveEvent_pitch_bounds (ex ey : ℤ) (v : Viewer) :
    -89 ≤ (mouseMoveEvent ex ey v).pitch ∧ (mouseMoveEvent ex ey v).pitch ≤ 89 := by
  rw [(mouseMoveEvent_fields ex ey v).2.1]
  exact ⟨le_max_left _ _, max_le (by norm_num) (min_le_left _ _)⟩

/-- Every UI event keeps fov in `[30, 120]` and pitch in `[-89, 89]`. -/
lemma stepEv_bounds (e : Ev) (v : Viewer)
    (hf : 30 ≤ v.fov ∧ v.fov ≤ 120) (hp : -89 ≤ v.pitch ∧ v.pitch ≤ 89) :
    (30 ≤ (stepEv e v).fov ∧ (stepEv e v).fov ≤ 120) ∧
    (-89 ≤ (stepEv e v).pitch ∧ (stepEv e v).pitch ≤ 89) := by
  cases e with
  | tick keys =>
      refine ⟨update_movement_fov_bounds keys v hf.1 hf.2, ?_⟩
      show -89 ≤ (update_movement keys v).pitch ∧ (update_movement keys v).pitch ≤ 89
      rw [(update_movement_preserves keys v).2.1]
      exact hp
  | mouseMove x y =>
      refine ⟨?_, mouseMoveEvent_pitch_bounds x y v⟩
      show 30 ≤ (mouseMoveEvent x y v).fov ∧ (mouseMoveEvent x y v).fov ≤ 120
      rw [(mouseMoveEvent_fields x y v).2.2.2.2.1]
      exact hf
  | mousePress x y => exact ⟨hf, hp⟩

/-- The fov and pitch bounds are invariants of every event sequence. -/
lemma runEvents_bounds (evs : List Ev) :
    ∀ v : Viewer, 30 ≤ v.fov → v.fov ≤ 120 → -89 ≤ v.pitch → v.pitch ≤ 89 →
      (30 ≤ (runEvents evs v).fov ∧ (runEvents evs v).fov ≤ 120) ∧
      (-89 ≤ (runEvents evs v).pitch ∧ (runEvents evs v).pitch ≤ 89) := by
  induction evs with
  | nil => exact fun v h1 h2 h3 h4 => ⟨⟨h1, h2⟩, ⟨h3, h4⟩⟩
  | cons e evs ih =>
      intro v h1 h2 h3 h4
      have hs := stepEv_bounds e v ⟨h1, h2⟩ ⟨h3, h4⟩
      have hr : runEvents (e :: evs) v = runEvents evs (stepEv e v) := rfl
      rw [hr]
      exact ih (stepEv e v) hs.1.1 hs.1.2 hs.2.1 hs.2.2

/-- A tick on which no relevant key is held leaves the position unchanged. -/
lemma update_movement_cam_fixed (keys : Finset Key) (v : Viewer)
    (hw : Key.w ∉ keys) (hs : Key.s ∉ keys) (ha : Key.a ∉ keys)
    (hd : Key.d ∉ keys) (hq : Key.q ∉ keys) (he : Key.e ∉ keys)
    (hm : Key.minus ∉ keys) :
    (update_movement keys v).cam_x = v.cam_x ∧
    (update_movement keys v).cam_y = v.cam_y ∧
    (update_movement keys v).cam_z = v.cam_z := by
  obtain ⟨hx, hz, hy⟩ := update_movement_cam_of_not_minus keys v hm
  rw [hx, hz, hy]
  simp [hw, hs, ha, hd, hq, he]

/-! ### Claim theorems -/

/-- C1: On every movement tick on which the zoom-out key (Minus) is held, the
camera position is reset to the origin; when zoom-in is not simultaneously
held the fov becomes `min 120 (fov + 1)` and the projection is recomputed
from that new fov; a tick with only a zoom-in key (Plus or Equal) held leaves
the position unchanged. -/
theorem C1_zoom_out_resets_position (keys : Finset Key) (v : Viewer) :
    (Key.minus ∈ keys →
       (update_movement keys v).cam_x = 0 ∧ (update_movement keys v).cam_y = 0 ∧
       (update_movement keys v).cam_z = 0) ∧
    (Key.minus ∈ keys → Key.plus ∉ keys → Key.equal ∉ keys →
       (update_movement keys v).fov = min 120 (v.fov + 1) ∧
       (update_movement keys v).proj =
         some { fovy := min 120 (v.fov + 1), aspect := aspectOrOne v.width v.height,
                near := 0.1, far := 1000 }) ∧
    ((update_movement {Key.plus} v).cam_x = v.cam_x ∧
     (update_movement {Key.plus} v).cam_y = v.cam_y ∧
     (update_movement {Key.plus} v).cam_z = v.cam_z) ∧
    ((update_movement {Key.equal} v).cam_x = v.cam_x ∧
     (update_movement {Key.equal} v).cam_y = v.cam_y ∧
     (update_movement {Key.equal} v).cam_z = v.cam_z) := by
  refine ⟨?_, ?_, ?_, ?_⟩
  · intro hm
    rw [update_movement]
    exact zoomKeys_cam_of_minus keys (moveKeys keys v) hm
  · intro hm hp he
    constructor
    · rw [update_movement_fov, if_pos hm, if_neg (not_or.mpr ⟨hp, he⟩)]
    · rw [update_movement]
      rw [zoomKeys_proj_of_minus keys (moveKeys keys v) hm hp he]
      obtain ⟨_, _, hfov, _, _, hwid, hhei, _⟩ := moveKeys_preserves keys v
      rw [hfov, hwid, hhei]
  · exact update_movement_cam_fixed {Key.plus} v (by decide) (by decide) (by decide)
      (by decide) (by decide) (by decide) (by decide)
  · exact update_movement_cam_fixed {Key.equal} v (by decide) (by decide) (by decide)
      (by decide) (by decide) (by decide) (by decide)

/-- Witness for C1 at a concrete tick: zoom-out alone from the initial state
recentres the camera and raises the fov to `min 120 101`. -/
theorem C1_witness :
    (update_movement {Key.minus} initViewer).cam_x = 0 ∧
    (update_movement {Key.minus} initViewer).fov = min 120 (initViewer.fov + 1) :=
  ⟨((C1_zoom_out_resets_position {Key.minus} initViewer).1 (by decide)).1,
   ((C1_zoom_out_resets_position {Key.minus} initViewer).2.1 (by decide)
      (by decide) (by decide)).1⟩

/-- C2: From the initial fov (100°) the fov stays inside `[30, 120]` for every
sequence of UI events with arbitrary held-key sets; a tick with a zoom-in key
(and no zoom-out key) held sets fov to `max 30 (fov - 1)`, a tick with the
zoom-out key (and no zoom-in key) held sets it to `min 120 (fov + 1)`, a tick
with no zoom key held leaves it unchanged, and mouse events never change it. -/
theorem C2_fov_invariant (evs : List Ev) (keys : Finset Key) (v : Viewer) :
    (30 ≤ (runEvents evs initViewer).fov ∧ (runEvents evs initViewer).fov ≤ 120) ∧
    ((Key.plus ∈ keys ∨ Key.equal ∈ keys) → Key.minus ∉ keys →
       (update_movement keys v).fov = max 30 (v.fov - 1)) ∧
    (Key.minus ∈ keys → Key.plus ∉ keys → Key.equal ∉ keys →
       (update_movement keys v).fov = min 120 (v.fov + 1)) ∧
    (Key.plus ∉ keys → Key.equal ∉ keys → Key.minus ∉ keys →
       (update_movement keys v).fov = v.fov) ∧
    (∀ x y : ℤ, (mouseMoveEvent x y v).fov = v.fov) ∧
    (∀ x y : ℤ, (mousePressEvent x y v).fov = v.fov) := by
  refine ⟨?_, ?_, ?_, ?_, fun x y => rfl, fun x y => rfl⟩
  · exact (runEvents_bounds evs initViewer (by norm_num [initViewer])
      (by norm_num [initViewer]) (by norm_num [initViewer])
      (by norm_num [initViewer])).1
  · intro hz hm
    rw [update_movement_fov, if_neg hm, if_pos hz]
  · intro hm hp he
    rw [update_movement_fov, if_pos hm, if_neg (not_or.mpr ⟨hp, he⟩)]
  · intro hp he hm
    rw [update_movement_fov, if_neg hm, if_neg (not_or.mpr ⟨hp, he⟩)]

/-- Witness for C2 at concrete inputs: the empty event run, a zoom-in tick, a
zoom-out tick and a key-free tick from the initial state. -/
theorem C2_witness :
    (30 ≤ (runEvents [] initViewer).fov ∧ (runEvents [] initViewer).fov ≤ 120) ∧
    (update_movement {Key.plus} initViewer).fov = max 30 (initViewer.fov - 1) ∧
    (update_movement {Key.minus} initViewer).fov = min 120 (initViewer.fov + 1) ∧
    (update_movement (∅ : Finset Key) initViewer).fov = initViewer.fov :=
  ⟨(C2_fov_invariant [] ∅ initViewer).1,
   (C2_fov_invariant [] {Key.plus} initViewer).2.1 (Or.inl (by decide)) (by decide),
   (C2_fov_invariant [] {Key.minus} initViewer).2.2.1 (by decide) (by decide) (by decide),
   (C2_fov_invariant [] (∅ : Finset Key) initViewer).2.2.2.1 (by decide) (by decide)
     (by decide)⟩

/-- C3: From the initial pitch (0°) the pitch stays inside `[-89, 89]` for
every sequence of UI events; each mouse move adds `dx * 0.2` to the yaw with
no clamp, sets the pitch to the clamp of `pitch + dy * 0.2`, and stores the
cursor position as the new reference. -/
theorem C3_pitch_invariant (evs : List Ev) (ex ey : ℤ) (v : Viewer) :
    (-89 ≤ (runEvents evs initViewer).pitch ∧ (runEvents evs initViewer).pitch ≤ 89) ∧
    (mouseMoveEvent ex ey v).yaw = v.yaw + ((ex - v.last_x : ℤ) : ℝ) * 0.2 ∧
    (mouseMoveEvent ex ey v).pitch =
      max (-89) (min 89 (v.pitch + ((ey - v.last_y : ℤ) : ℝ) * 0.2)) ∧
    (mouseMoveEvent ex ey v).last_x = ex ∧ (mouseMoveEvent ex ey v).last_y = ey := by
  obtain ⟨hyaw, hpitch, hlx, hly, _, _, _, _⟩ := mouseMoveEvent_fields ex ey v
  refine ⟨?_, hyaw, hpitch, hlx, hly⟩
  exact (runEvents_bounds evs initViewer (by norm_num [initViewer])
    (by norm_num [initViewer]) (by norm_num [initViewer])
    (by norm_num [initViewer])).2

/-- C4: On a movement tick (with the independently documented zoom-out
position reset not firing), each held movement key contributes its direction
vector times the speed 0.2: W/S add/subtract the forward vector
`(sin yaw, 0, -cos yaw)`, A/D subtract/add the right vector
`(cos yaw, 0, sin yaw)`, Q/E move only the vertical coordinate by ∓0.2, and
the vertical coordinate is untouched by W/A/S/D. -/
theorem C4_movement_vectors (keys : Finset Key) (v : Viewer)
    (hm : Key.minus ∉ keys) :
    (update_movement keys v).cam_x = v.cam_x
      + (if Key.w ∈ keys then Real.sin (radians v.yaw) * 0.2 else 0)
      - (if Key.s ∈ keys then Real.sin (radians v.yaw) * 0.2 else 0)
      - (if Key.a ∈ keys then Real.cos (radians v.yaw) * 0.2 else 0)
      + (if Key.d ∈ keys then Real.cos (radians v.yaw) * 0.2 else 0) ∧
    (update_movement keys v).cam_z = v.cam_z
      + (if Key.w ∈ keys then -Real.cos (radians v.yaw) * 0.2 else 0)
      - (if Key.s ∈ keys then -Real.cos (radians v.yaw) * 0.2 else 0)
      - (if Key.a ∈ keys then Real.sin (radians v.yaw) * 0.2 else 0)
      + (if Key.d ∈ keys then Real.sin (radians v.yaw) * 0.2 else 0) ∧
    (update_movement keys v).cam_y = v.cam_y
      - (if Key.q ∈ keys then (0.2 : ℝ) else 0)
      + (if Key.e ∈ keys then (0.2 : ℝ) else 0) :=
  update_movement_cam_of_not_minus keys v hm

/-- Witness for C4 at a concrete tick: W alone held from the initial state. -/
theorem C4_witness :
    (update_movement {Key.w} initViewer).cam_x = initViewer.cam_x
      + (if Key.w ∈ ({Key.w} : Finset Key) then
          Real.sin (radians initViewer.yaw) * 0.2 else 0)
      - (if Key.s ∈ ({Key.w} : Finset Key) then
          Real.sin (radians initViewer.yaw) * 0.2 else 0)
      - (if Key.a ∈ ({Key.w} : Finset Key) then
          Real.cos (radians initViewer.yaw) * 0.2 else 0)
      + (if Key.d ∈ ({Key.w} : Finset Key) then
          Real.cos (radians initViewer.yaw) * 0.2 else 0) :=
  (C4_movement_vectors {Key.w} initViewer (by decide)).1

/-- C5 counterexample: at the initial state (yaw 0) a tick holding exactly
W and A changes `cam_x` by `-0.2`, while "forward plus right, each scaled by
0.2" would change it by `+0.2` — A subtracts the right vector, so the claimed
sum is wrong. -/
theorem C5_counterexample :
    (update_movement {Key.w, Key.a} initViewer).cam_x = -0.2 ∧
    initViewer.cam_x + Real.sin (radians initViewer.yaw) * 0.2
      + Real.cos (radians initViewer.yaw) * 0.2 = 0.2 ∧
    ¬ ((update_movement {Key.w, Key.a} initViewer).cam_x
        = initViewer.cam_x + Real.sin (radians initViewer.yaw) * 0.2
          + Real.cos (radians initViewer.yaw) * 0.2) := by
  have hr : radians initViewer.yaw = 0 := by
    show (0 : ℝ) * Real.pi / 180 = 0
    ring
  have hw : Key.w ∈ ({Key.w, Key.a} : Finset Key) := by decide
  have ha : Key.a ∈ ({Key.w, Key.a} : Finset Key) := by decide
  have hs : Key.s ∉ ({Key.w, Key.a} : Finset Key) := by decide
  have hd : Key.d ∉ ({Key.w, Key.a} : Finset Key) := by decide
  have hcx : initViewer.cam_x = 0 := rfl
  have hx := (update_movement_cam_of_not_minus {Key.w, Key.a} initViewer (by decide)).1
  simp only [if_pos hw, if_pos ha, if_neg hs, if_neg hd] at hx
  rw [hr, Real.sin_zero, Real.cos_zero, hcx] at hx
  have hx' : (update_movement {Key.w, Key.a} initViewer).cam_x = -0.2 := by
    rw [hx]; norm_num
  refine ⟨hx', ?_, ?_⟩
  · rw [hr, Real.sin_zero, Real.cos_zero, hcx]
    norm_num
  · rw [hx', hr, Real.sin_zero, Real.cos_zero, hcx]
    norm_num

/-- C5 amended: a tick holding exactly W and A changes the position by the
forward vector minus the right vector (A subtracts the right vector), each
scaled by the per-tick speed 0.2, leaving the vertical coordinate alone. -/
theorem C5_amended_w_and_a (v : Viewer) :
    (update_movement {Key.w, Key.a} v).cam_x
      = v.cam_x + Real.sin (radians v.yaw) * 0.2 - Real.cos (radians v.yaw) * 0.2 ∧
    (update_movement {Key.w, Key.a} v).cam_z
      = v.cam_z + (-Real.cos (radians v.yaw)) * 0.2 - Real.sin (radians v.yaw) * 0.2 ∧
    (update_movement {Key.w, Key.a} v).cam_y = v.cam_y := by
  have hw : Key.w ∈ ({Key.w, Key.a} : Finset Key) := by decide
  have ha : Key.a ∈ ({Key.w, Key.a} : Finset Key) := by decide
  have hs : Key.s ∉ ({Key.w, Key.a} : Finset Key) := by decide
  have hd : Key.d ∉ ({Key.w, Key.a} : Finset Key) := by decide
  have hq : Key.q ∉ ({Key.w, Key.a} : Finset Key) := by decide
  have he : Key.e ∉ ({Key.w, Key.a} : Finset Key) := by decide
  obtain ⟨hx, hz, hy⟩ := update_movement_cam_of_not_minus {Key.w, Key.a} v (by decide)
  simp only [if_pos hw, if_pos ha, if_neg hs, if_neg hd, if_neg hq, if_neg he] at hx hz hy
  rw [hx, hz, hy]
  refine ⟨by ring, by ring, by ring⟩

/-- C9: recomputing the projection never divides by zero — the aspect
expression `w / h if h else 1` only reaches the division when `h` is nonzero,
evaluating to `w / h` then and to `1` when `h = 0`. -/
theorem C9_aspect_total (w h : ℤ) :
    aspectExpr w h = some (aspectOrOne w h) ∧
    (h ≠ 0 → aspectOrOne w h = (w : ℚ) / (h : ℚ)) ∧
    (h = 0 → aspectOrOne w h = 1) := by
  refine ⟨?_, fun hn => by simp [aspectOrOne, hn], fun hz => by simp [aspectOrOne, hz]⟩
  by_cases hz : h = 0
  · simp [aspectExpr, aspectOrOne, hz]
  · simp [aspectExpr, aspectOrOne, pyDiv, hz]

/-- Witness for C9 at the fixed window size and at a degenerate zero height. -/
theorem C9_witness :
    aspectExpr 1280 720 = some (aspectOrOne 1280 720) ∧
    aspectOrOne 1280 720 = (1280 : ℚ) / 720 ∧
    aspectExpr 1280 0 = some (aspectOrOne 1280 0) ∧
    aspectOrOne 1280 0 = 1 :=
  ⟨(C9_aspect_total 1280 720).1, (C9_aspect_total 1280 720).2.1 (by decide),
   (C9_aspect_total 1280 0).1, (C9_aspect_total 1280 0).2.2 rfl⟩

/-- C10 counterexample: with W, S and the zoom-out key held — W and S being
the only horizontal-movement keys — a tick from `cam_x = 1` moves `cam_x`
to 0, because the zoom-out branch resets the position. -/
theorem C10_counterexample :
    Key.w ∈ ({Key.w, Key.s, Key.minus} : Finset Key) ∧
    Key.s ∈ ({Key.w, Key.s, Key.minus} : Finset Key) ∧
    Key.a ∉ ({Key.w, Key.s, Key.minus} : Finset Key) ∧
    Key.d ∉ ({Key.w, Key.s, Key.minus} : Finset Key) ∧
    (update_movement {Key.w, Key.s, Key.minus}
        { initViewer with cam_x := 1 }).cam_x = 0 ∧
    ({ initViewer with cam_x := 1 } : Viewer).cam_x = 1 ∧ (0 : ℝ) ≠ 1 := by
  refine ⟨by decide, by decide, by decide, by decide, ?_, rfl, by norm_num⟩
  rw [update_movement]
  exact (zoomKeys_cam_of_minus _ _ (by decide)).1

/-- C10 amended: provided the zoom-out key is not held, a tick holding both
W and S (and neither A nor D) leaves the x and z coordinates unchanged, and
likewise a tick holding both A and D (and neither W nor S). -/
theorem C10_amended_opposite_keys_cancel (keys : Finset Key) (v : Viewer)
    (hm : Key.minus ∉ keys) :
    ((Key.w ∈ keys ∧ Key.s ∈ keys ∧ Key.a ∉ keys ∧ Key.d ∉ keys) →
       (update_movement keys v).cam_x = v.cam_x ∧
       (update_movement keys v).cam_z = v.cam_z) ∧
    ((Key.a ∈ keys ∧ Key.d ∈ keys ∧ Key.w ∉ keys ∧ Key.s ∉ keys) →
       (update_movement keys v).cam_x = v.cam_x ∧
       (update_movement keys v).cam_z = v.cam_z) := by
  obtain ⟨hx, hz, _⟩ := update_movement_cam_of_not_minus keys v hm
  constructor
  · rintro ⟨h1, h2, h3, h4⟩
    rw [hx, hz]
    simp [h1, h2, h3, h4]
  · rintro ⟨h1, h2, h3, h4⟩
    rw [hx, hz]
    simp [h1, h2, h3, h4]

/-- Witness for the amended C10 at a concrete tick: W and S held together
from the initial state leave x and z unchanged. -/
theorem C10_witness :
    (update_movement {Key.w, Key.s} initViewer).cam_x = initViewer.cam_x ∧
    (update_movement {Key.w, Key.s} initViewer).cam_z = initViewer.cam_z :=
  (C10_amended_opposite_keys_cancel {Key.w, Key.s} initViewer (by decide)).1
    ⟨by decide, by decide, by decide, by decide⟩

/-! ### Min-max normalisation lemmas (for the image loader) -/

/-- The running minimum is a lower bound for its seed. -/
lemma foldl_min_le_seed (l : List ℚ) : ∀ x : ℚ, l.foldl min x ≤ x := by
  induction l with
  | nil => exact fun x => le_refl x
  | cons a l ih => exact fun x => le_trans (ih (min x a)) (min_le_left x a)

/-- The running minimum is a lower bound for every list element. -/
lemma foldl_min_le_mem (l : List ℚ) : ∀ x y : ℚ, y ∈ l → l.foldl min x ≤ y := by
  induction l with
  | nil => intro x y hy; cases hy
  | cons a l ih =>
      intro x y hy
      rcases List.mem_cons.mp hy with rfl | hy
      · exact le_trans (foldl_min_le_seed l (min x y)) (min_le_right x y)
      · exact ih (min x a) y hy

/-- The running minimum is the seed or a list element. -/
lemma foldl_min_mem (l : List ℚ) : ∀ x : ℚ, l.foldl min x = x ∨ l.foldl min x ∈ l := by
  induction l with
  | nil => exact fun x => Or.inl rfl
  | cons a l ih =>
      intro x
      rcases ih (min x a) with h | h
      · rcases min_choice x a with hc | hc
        · exact Or.inl (h.trans hc)
        · exact Or.inr (List.mem_cons.mpr (Or.inl (h.trans hc)))
      · exact Or.inr (List.mem_cons.mpr (Or.inr h))

/-- The running maximum is an upper bound for its seed. -/
lemma le_foldl_max_seed (l : List ℚ) : ∀ x : ℚ, x ≤ l.foldl max x := by
  induction l with
  | nil => exact fun x => le_refl x
  | cons a l ih => exact fun x => le_trans (le_max_left x a) (ih (max x a))

/-- The running maximum is an upper bound for every list element. -/
lemma le_foldl_max_mem (l : List ℚ) : ∀ x y : ℚ, y ∈ l → y ≤ l.foldl max x := by
  induction l with
  | nil => intro x y hy; cases hy
  | cons a l ih =>
      intro x y hy
      rcases List.mem_cons.mp hy with rfl | hy
      · exact le_trans (le_max_right x y) (le_foldl_max_seed l (max x y))
      · exact ih (max x a) y hy

/-- The running maximum is the seed or a list element. -/
lemma foldl_max_mem (l : List ℚ) : ∀ x : ℚ, l.foldl max x = x ∨ l.foldl max x ∈ l := by
  induction l with
  | nil => exact fun x => Or.inl rfl
  | cons a l ih =>
      intro x
      rcases ih (max x a) with h | h
      · rcases max_choice x a with hc | hc
        · exact Or.inl (h.trans hc)
        · exact Or.inr (List.mem_cons.mpr (Or.inl (h.trans hc)))
      · exact Or.inr (List.mem_cons.mpr (Or.inr h))

/-- Min-max normalisation of a list with a positive sample range: every value
lies in `[0, 255]`, and both 0 and 255 are attained (by the minimal and
maximal samples). -/
lemma normalizeMinMax_spread (x : ℚ) (rest : List ℚ)
    (hlt : rest.foldl min x < rest.foldl max x) :
    (∀ t ∈ normalizeMinMax (x :: rest), 0 ≤ t ∧ t ≤ 255) ∧
    (0 : ℚ) ∈ normalizeMinMax (x :: rest) ∧
    (255 : ℚ) ∈ normalizeMinMax (x :: rest) := by
  have hpos : 0 < rest.foldl max x - rest.foldl min x := by linarith
  have hne : rest.foldl max x - rest.foldl min x ≠ 0 := ne_of_gt hpos
  have hform : normalizeMinMax (x :: rest) =
      (x :: rest).map (fun t =>
        t * (255 / (rest.foldl max x - rest.foldl min x))
          + (0 - rest.foldl min x * (255 / (rest.foldl max x - rest.foldl min x)))) := by
    simp only [normalizeMinMax, if_pos hlt]
  have hval : ∀ t : ℚ,
      t * (255 / (rest.foldl max x - rest.foldl min x))
        + (0 - rest.foldl min x * (255 / (rest.foldl max x - rest.foldl min x)))
      = (t - rest.foldl min x) * 255 / (rest.foldl max x - rest.foldl min x) := by
    intro t; ring
  refine ⟨?_, ?_, ?_⟩
  · intro t ht
    rw [hform] at ht
    obtain ⟨u, hu, rfl⟩ := List.mem_map.mp ht
    rw [hval u]
    have hlo : rest.foldl min x ≤ u := by
      rcases List.mem_cons.mp hu with rfl | hu
      · exact foldl_min_le_seed rest u
      · exact foldl_min_le_mem rest x u hu
    have hhi : u ≤ rest.foldl max x := by
      rcases List.mem_cons.mp hu with rfl | hu
      · exact le_foldl_max_seed rest u
      · exact le_foldl_max_mem rest x u hu
    constructor
    · exact div_nonneg (mul_nonneg (sub_nonneg.mpr hlo) (by norm_num)) (le_of_lt hpos)
    · rw [div_le_iff hpos]
      nlinarith
  · rw [hform]
    have hmem : rest.foldl min x ∈ x :: rest := by
      rcases foldl_min_mem rest x with h | h
      · rw [h]; exact List.mem_cons.mpr (Or.inl rfl)
      · exact List.mem_cons.mpr (Or.inr h)
    refine List.mem_map.mpr ⟨rest.foldl min x, hmem, ?_⟩
    rw [hval]
    rw [sub_self, zero_mul, zero_div]
  · rw [hform]
    have hmem : rest.foldl max x ∈ x :: rest := by
      rcases foldl_max_mem rest x with h | h
      · rw [h]; exact List.mem_cons.mpr (Or.inl rfl)
      · exact List.mem_cons.mpr (Or.inr h)
    refine List.mem_map.mpr ⟨rest.foldl max x, hmem, ?_⟩
    rw [hval]
    field_simp

/-- The 8-bit conversion keeps `[0, 255]` and fixes its integer endpoints. -/
lemma astypeUint8_bounds (q : ℚ) (h0 : 0 ≤ q) (h255 : q ≤ 255) :
    0 ≤ astypeUint8 q ∧ astypeUint8 q ≤ 255 := by
  unfold astypeUint8
  constructor
  · exact_mod_cast Int.floor_nonneg.mpr h0
  · have : ⌊q⌋ ≤ (255 : ℤ) := by
      have := Int.floor_le_floor h255
      simpa using this
    exact_mod_cast this

/-- C6 counterexample: a constant non-8-bit image (two samples of value 7) is
mapped by the min-max rescale to all zeros, so the resulting sample values do
not fill `[0, 255]` — 255 is not attained. -/
theorem C6_counterexample :
    rescaleTo8bit { samples := [7, 7], dtypeUint8 := false } = [0, 0] ∧
    (255 : ℚ) ∉ rescaleTo8bit { samples := [7, 7], dtypeUint8 := false } := by
  have h : rescaleTo8bit { samples := [7, 7], dtypeUint8 := false } = [0, 0] := by
    norm_num [rescaleTo8bit, normalizeMinMax, astypeUint8]
  refine ⟨h, ?_⟩
  rw [h]
  decide

/-- C6 amended: for a non-8-bit image with at least two distinct sample
values, the rescaled 8-bit buffer lies inside `[0, 255]` and attains both 0
and 255 (a constant image instead maps to all zeros); an image already in
8-bit depth is uploaded without rescaling. -/
theorem C6_amended_rescale_fills_range (img : Img)
    (h8 : img.dtypeUint8 = false)
    (hne : ∃ a ∈ img.samples, ∃ b ∈ img.samples, a ≠ b) :
    (∀ t ∈ rescaleTo8bit img, 0 ≤ t ∧ t ≤ 255) ∧
    (0 : ℚ) ∈ rescaleTo8bit img ∧ (255 : ℚ) ∈ rescaleTo8bit img ∧
    (∀ j : Img, j.dtypeUint8 = true → rescaleTo8bit j = j.samples) := by
  have hid : ∀ j : Img, j.dtypeUint8 = true → rescaleTo8bit j = j.samples := by
    intro j hj
    rw [rescaleTo8bit, if_pos hj]
  obtain ⟨a, ha, b, hb, hab⟩ := hne
  rcases hsam : img.samples with _ | ⟨x, rest⟩
  · rw [hsam] at ha; cases ha
  · rw [hsam] at ha hb
    have bound_lo : ∀ t ∈ x :: rest, rest.foldl min x ≤ t := by
      intro t ht
      rcases List.mem_cons.mp ht with rfl | ht
      · exact foldl_min_le_seed rest t
      · exact foldl_min_le_mem rest x t ht
    have bound_hi : ∀ t ∈ x :: rest, t ≤ rest.foldl max x := by
      intro t ht
      rcases List.mem_cons.mp ht with rfl | ht
      · exact le_foldl_max_seed rest t
      · exact le_foldl_max_mem rest x t ht
    have hlt : rest.foldl min x < rest.foldl max x := by
      rcases lt_or_ge (rest.foldl min x) (rest.foldl max x) with h | h
      · exact h
      · exfalso
        apply hab
        have ha1 : a = rest.foldl min x :=
          le_antisymm ((bound_hi a ha).trans h) (bound_lo a ha)
        have hb1 : b = rest.foldl min x :=
          le_antisymm ((bound_hi b hb).trans h) (bound_lo b hb)
        rw [ha1, hb1]
    obtain ⟨hbnd, h0, h255⟩ := normalizeMinMax_spread x rest hlt
    have hres : rescaleTo8bit img = (normalizeMinMax (x :: rest)).map astypeUint8 := by
      rw [rescaleTo8bit, if_neg (by simp [h8]), hsam]
    refine ⟨?_, ?_, ?_, hid⟩
    · intro t ht
      rw [hres] at ht
      obtain ⟨u, hu, rfl⟩ := List.mem_map.mp ht
      exact astypeUint8_bounds u (hbnd u hu).1 (hbnd u hu).2
    · rw [hres]
      refine List.mem_map.mpr ⟨0, h0, ?_⟩
      norm_num [astypeUint8]
    · rw [hres]
      refine List.mem_map.mpr ⟨255, h255, ?_⟩
      norm_num [astypeUint8]

/-- Witness for the amended C6 at a concrete image: a non-8-bit image with
samples 10 and 20 rescales to a buffer inside `[0, 255]` hitting 0 and 255. -/
theorem C6_witness :
    (∀ t ∈ rescaleTo8bit { samples := [10, 20], dtypeUint8 := false }, 0 ≤ t ∧ t ≤ 255) ∧
    (0 : ℚ) ∈ rescaleTo8bit { samples := [10, 20], dtypeUint8 := false } ∧
    (255 : ℚ) ∈ rescaleTo8bit { samples := [10, 20], dtypeUint8 := false } ∧
    (∀ j : Img, j.dtypeUint8 = true → rescaleTo8bit j = j.samples) :=
  C6_amended_rescale_fills_range { samples := [10, 20], dtypeUint8 := false } rfl
    ⟨10, by decide, 20, by decide, by decide⟩

/-- C7: when the decoder returns no image, `load_texture` raises the fatal
`RuntimeError` — startup produces no texture and renders no frame — and the
error arises exactly on decode failure. -/
theorem C7_decode_failure_fatal :
    load_texture none = Except.error "Failed to load image" ∧
    (∀ s : Session, runViewerStartup none ≠ Except.ok s) ∧
    (∀ img : Img, load_texture (some img) = Except.ok (rescaleTo8bit img)) := by
  refine ⟨rfl, ?_, fun img => rfl⟩
  intro s h
  exact Except.noConfusion h

/-- C8: the last filter pattern is `*jpeg` (without a dot), so the file name
`xjpeg` — which has none of the extensions .jpg/.png/.hdr/.jpeg — passes the
filter; the four claimed extensions do pass, unrelated names do not, and a
cancelled dialog (empty path) exits with status 0. -/
theorem C8_filter_divergence :
    selectable ("xjpeg".toList) = true ∧
    hasClaimedExtension ("xjpeg".toList) = false ∧
    selectable ("pano.jpg".toList) = true ∧
    selectable ("pano.png".toList) = true ∧
    selectable ("pano.hdr".toList) = true ∧
    selectable ("pano.jpeg".toList) = true ∧
    selectable ("pano.gif".toList) = false ∧
    mainStart "" = StartAction.exitZero ∧
    mainStart "pano.jpg" = StartAction.openViewer "pano.jpg" := by
  refine ⟨by decide, by decide, by decide, by decide, by decide, by decide, by decide,
    by decide, by decide⟩

end App360
